import Mathlib

/-!
Shallow embedding of `src/clock.rs` (crate `vectorclock-rs`).

The Rust code stores a vector clock as a `HashMap<HostType, u64>`.  A hash
map is modelled here as an association list `List (H × Nat)` whose keys are
pairwise distinct; lookups return `Option Nat`.  `u64` counters are modelled
as `Nat` with explicit wrapping modulo `2 ^ 64` at the one place the code
performs arithmetic (`incremented`, release-profile wrapping semantics).
Derived `PartialEq` on `HashMap` (equal iff they contain the same key-value
pairs) is modelled as extensional equality of lookups, decided by a two-sided
entry scan.
-/

namespace VC

variable {H : Type} [DecidableEq H]

/-- Size of the `u64` value space; `incremented` wraps modulo this. -/
def u64Size : Nat := 2 ^ 64

/-- Lookup in an association list: first entry with the given key
(models `HashMap::get`). -/
def lookupE (h : H) : List (H × Nat) → Option Nat
  | [] => none
  | (k, v) :: rest => if k = h then some v else lookupE h rest

/-- Insert-or-update of a key (models `HashMap` slot assignment: the
`Entry` API's `insert`, and plain `insert` during `collect`). -/
def setEntry : List (H × Nat) → H → Nat → List (H × Nat)
  | [], h, n => [(h, n)]
  | (k, v) :: rest, h, n =>
    if k = h then (h, n) :: rest else (k, v) :: setEntry rest h n

theorem lookupE_nil (h : H) : lookupE h ([] : List (H × Nat)) = none := rfl

theorem lookupE_cons (h k : H) (v : Nat) (rest : List (H × Nat)) :
    lookupE h ((k, v) :: rest) = if k = h then some v else lookupE h rest := rfl

theorem lookupE_setEntry (l : List (H × Nat)) (h h' : H) (n : Nat) :
    lookupE h' (setEntry l h n) = if h = h' then some n else lookupE h' l := by
  induction l with
  | nil => simp [setEntry, lookupE]
  | cons p rest ih =>
    obtain ⟨k, v⟩ := p
    by_cases hk : k = h
    · subst hk
      simp only [setEntry, if_pos rfl, lookupE_cons]
      by_cases h2 : k = h'
      · simp [lookupE_cons, h2]
      · simp [lookupE_cons, h2]
    · simp only [setEntry, if_neg hk, lookupE_cons]
      by_cases hk' : k = h'
      · subst hk'
        have hkh : ¬ h = k := fun hh => hk hh.symm
        simp [hkh]
      · simp [hk', ih]

theorem mem_of_lookupE {l : List (H × Nat)} {h : H} {v : Nat}
    (hl : lookupE h l = some v) : (h, v) ∈ l := by
  induction l with
  | nil => simp [lookupE] at hl
  | cons p rest ih =>
    obtain ⟨k, w⟩ := p
    rw [lookupE_cons] at hl
    by_cases hk : k = h
    · rw [if_pos hk] at hl
      injection hl with hv
      subst hv
      subst hk
      exact List.mem_cons_self _ _
    · rw [if_neg hk] at hl
      exact List.mem_cons_of_mem _ (ih hl)

theorem lookupE_eq_none_iff (l : List (H × Nat)) (h : H) :
    lookupE h l = none ↔ h ∉ l.map Prod.fst := by
  induction l with
  | nil => simp [lookupE]
  | cons p rest ih =>
    obtain ⟨k, w⟩ := p
    by_cases hk : k = h
    · subst hk
      simp [lookupE_cons]
    · have hk2 : ¬ h = k := fun he => hk he.symm
      simp [lookupE_cons, hk, hk2, ih]

theorem lookupE_of_mem {l : List (H × Nat)} {h : H} {v : Nat}
    (hnd : (l.map Prod.fst).Nodup) (hm : (h, v) ∈ l) : lookupE h l = some v := by
  induction l with
  | nil => simp at hm
  | cons p rest ih =>
    obtain ⟨k, w⟩ := p
    simp only [List.map_cons, List.nodup_cons] at hnd
    rcases List.mem_cons.mp hm with hh | hh
    · injection hh with h1 h2
      subst h1
      subst h2
      rw [lookupE_cons, if_pos rfl]
    · have hk : k ≠ h := by
        intro he
        subst he
        exact hnd.1 (List.mem_map.mpr ⟨(k, v), hh, rfl⟩)
      rw [lookupE_cons, if_neg hk]
      exact ih hnd.2 hh

theorem keys_setEntry (l : List (H × Nat)) (h : H) (n : Nat) :
    (setEntry l h n).map Prod.fst =
      if h ∈ l.map Prod.fst then l.map Prod.fst else l.map Prod.fst ++ [h] := by
  induction l with
  | nil => simp [setEntry]
  | cons p rest ih =>
    obtain ⟨k, v⟩ := p
    by_cases hk : k = h
    · subst hk
      simp [setEntry]
    · have hk' : ¬ h = k := fun hh => hk hh.symm
      simp only [setEntry, if_neg hk, List.map_cons, List.mem_cons]
      rw [ih]
      by_cases hm : h ∈ rest.map Prod.fst
      · simp [hm, hk']
      · simp [hm, hk']

theorem nodup_setEntry {l : List (H × Nat)} (h : H) (n : Nat)
    (hnd : (l.map Prod.fst).Nodup) : ((setEntry l h n).map Prod.fst).Nodup := by
  rw [keys_setEntry]
  by_cases hm : h ∈ l.map Prod.fst
  · simpa [hm] using hnd
  · simp only [if_neg hm]
    exact List.Nodup.append hnd (List.nodup_singleton h) (by simpa using hm)

/-- The four-way classification returned by `temporal_relation`
(`enum TemporalRelation` in the source). -/
inductive TemporalRelation where
  | Equal
  | Caused
  | EffectOf
  | Concurrent
  deriving DecidableEq, Repr

/-- `VectorClock<HostType> { entries: HashMap<HostType, u64> }`, with the
hash map as a key-distinct association list. -/
structure VectorClock (H : Type) where
  entries : List (H × Nat)
  nodupKeys : (entries.map Prod.fst).Nodup

/-- `VectorClock::new()`: the empty map. -/
def new : VectorClock H := ⟨[], List.nodup_nil⟩

/-- Effective counter of a host: `*entries.get(host).unwrap_or(&0)`. -/
def getCount (c : VectorClock H) (h : H) : Nat := (lookupE h c.entries).getD 0

/-- Derived `PartialEq` on the entries hash maps: two maps are `==` iff they
hold the same key-value pairs, i.e. iff each entry of either map is found
under the same key in the other. -/
def entriesEqv (a b : List (H × Nat)) : Bool :=
  a.all (fun p => decide (lookupE p.1 b = some p.2)) &&
  b.all (fun p => decide (lookupE p.1 a = some p.2))

/-- `self == other` on whole clocks (derived `PartialEq` compares the
`entries` field). -/
def clockEq (a b : VectorClock H) : Bool := entriesEqv a.entries b.entries

/-- `VectorClock::incremented`: clone the entries, then on the slot for
`host` insert `1` if vacant or the wrapped successor if occupied. -/
def incremented (c : VectorClock H) (host : H) : VectorClock H :=
  match lookupE host c.entries with
  | none => ⟨setEntry c.entries host 1, nodup_setEntry host 1 c.nodupKeys⟩
  | some v =>
    ⟨setEntry c.entries host ((v + 1) % u64Size),
     nodup_setEntry host ((v + 1) % u64Size) c.nodupKeys⟩

/-- First loop of `superseded_by`: iterate `self`'s entries against lookups
in `other`; `none` models the early `return false` when
`self_n > other_n`, otherwise the accumulated `has_smaller` is returned. -/
def loopSelf (otherE : List (H × Nat)) :
    List (H × Nat) → Bool → Option Bool
  | [], has_smaller => some has_smaller
  | (host, self_n) :: rest, has_smaller =>
    let other_n := (lookupE host otherE).getD 0
    if self_n > other_n then none
    else loopSelf otherE rest (has_smaller || decide (self_n < other_n))

/-- Second loop of `superseded_by`: iterate `other`'s entries against
lookups in `self`, same test and accumulator. -/
def loopOther (selfE : List (H × Nat)) :
    List (H × Nat) → Bool → Option Bool
  | [], has_smaller => some has_smaller
  | (host, other_n) :: rest, has_smaller =>
    let self_n := (lookupE host selfE).getD 0
    if self_n > other_n then none
    else loopOther selfE rest (has_smaller || decide (self_n < other_n))

/-- `VectorClock::superseded_by`: both loops, threading `has_smaller`,
with `none` collapsing to `false`. -/
def superseded_by (c other : VectorClock H) : Bool :=
  match loopSelf other.entries c.entries false with
  | none => false
  | some hs =>
    match loopOther c.entries other.entries hs with
    | none => false
    | some hs2 => hs2

/-- `VectorClock::temporal_relation`: equality first, then the two
dominance tests, else concurrent. -/
def temporal_relation (c other : VectorClock H) : TemporalRelation :=
  if clockEq c other then TemporalRelation.Equal
  else if superseded_by c other then TemporalRelation.Caused
  else if superseded_by other c then TemporalRelation.EffectOf
  else TemporalRelation.Concurrent

/-- Entry-list part of `merge_with`: start from a clone of `self`'s
entries and fold over `other`'s entries; a vacant slot receives `other`'s
count, an occupied one is overwritten only when `other_n > self_n`. -/
def mergeEntries : List (H × Nat) → List (H × Nat) → List (H × Nat)
  | acc, [] => acc
  | acc, (host, other_n) :: rest =>
    match lookupE host acc with
    | none => mergeEntries (setEntry acc host other_n) rest
    | some self_n =>
      if other_n > self_n then mergeEntries (setEntry acc host other_n) rest
      else mergeEntries acc rest

theorem nodup_mergeEntries (l : List (H × Nat)) :
    ∀ acc : List (H × Nat), (acc.map Prod.fst).Nodup →
      ((mergeEntries acc l).map Prod.fst).Nodup := by
  induction l with
  | nil => intro acc hacc; simpa [mergeEntries] using hacc
  | cons p rest ih =>
    intro acc hacc
    obtain ⟨host, other_n⟩ := p
    unfold mergeEntries
    cases hl : lookupE host acc with
    | none => exact ih _ (nodup_setEntry host other_n hacc)
    | some self_n =>
      by_cases hgt : other_n > self_n
      · simpa [hgt] using ih _ (nodup_setEntry host other_n hacc)
      · simpa [hgt] using ih _ hacc

/-- `VectorClock::merge_with`. -/
def merge_with (c other : VectorClock H) : VectorClock H :=
  ⟨mergeEntries c.entries other.entries,
   nodup_mergeEntries other.entries c.entries c.nodupKeys⟩

/-- `VectorClock::to_vec`: export the explicit entries as pairs (the
clone of each host and count is the identity here). -/
def to_vec (c : VectorClock H) : List (H × Nat) :=
  c.entries.map (fun p => (p.1, p.2))

/-- Entry-list part of `from_vec`: `v.iter().cloned().collect()` builds a
hash map by inserting the pairs in order, later pairs overwriting. -/
def fromVecEntries (v : List (H × Nat)) : List (H × Nat) :=
  v.foldl (fun acc p => setEntry acc p.1 p.2) []

theorem nodup_fromVecEntries_aux (v : List (H × Nat)) :
    ∀ acc : List (H × Nat), (acc.map Prod.fst).Nodup →
      ((v.foldl (fun acc p => setEntry acc p.1 p.2) acc).map Prod.fst).Nodup := by
  induction v with
  | nil => intro acc hacc; simpa using hacc
  | cons p rest ih =>
    intro acc hacc
    simpa [List.foldl_cons] using ih _ (nodup_setEntry p.1 p.2 hacc)

/-- `VectorClock::from_vec`. -/
def from_vec (v : List (H × Nat)) : VectorClock H :=
  ⟨fromVecEntries v, nodup_fromVecEntries_aux v [] List.nodup_nil⟩

/-!  Characterisation of the derived `==` on clocks. -/

theorem entriesEqv_iff {a b : List (H × Nat)}
    (hna : (a.map Prod.fst).Nodup) (hnb : (b.map Prod.fst).Nodup) :
    entriesEqv a b = true ↔ ∀ h, lookupE h a = lookupE h b := by
  constructor
  · intro he h
    rw [entriesEqv, Bool.and_eq_true, List.all_eq_true, List.all_eq_true] at he
    obtain ⟨hab, hba⟩ := he
    cases hla : lookupE h a with
    | some v =>
      have hm : (h, v) ∈ a := mem_of_lookupE hla
      have := hab _ hm
      exact (of_decide_eq_true this).symm ▸ rfl
    | none =>
      cases hlb : lookupE h b with
      | some w =>
        have hm : (h, w) ∈ b := mem_of_lookupE hlb
        have := of_decide_eq_true (hba _ hm)
        rw [this] at hla
        exact absurd hla (by simp)
      | none => rfl
  · intro hl
    rw [entriesEqv, Bool.and_eq_true, List.all_eq_true, List.all_eq_true]
    constructor
    · intro p hp
      exact decide_eq_true ((hl p.1).symm ▸ lookupE_of_mem hna hp)
    · intro p hp
      exact decide_eq_true ((hl p.1) ▸ lookupE_of_mem hnb hp)

theorem clockEq_iff (a b : VectorClock H) :
    clockEq a b = true ↔ ∀ h, lookupE h a.entries = lookupE h b.entries :=
  entriesEqv_iff a.nodupKeys b.nodupKeys

theorem clockEq_symm (a b : VectorClock H) : clockEq a b = clockEq b a := by
  by_cases hab : clockEq a b = true
  · have := (clockEq_iff a b).mp hab
    have hba : clockEq b a = true := (clockEq_iff b a).mpr (fun h => (this h).symm)
    rw [hab, hba]
  · have hba : ¬ clockEq b a = true := by
      intro hc
      exact hab ((clockEq_iff a b).mpr (fun h => ((clockEq_iff b a).mp hc h).symm))
    rw [Bool.not_eq_true] at hab hba
    rw [hab, hba]

theorem clockEq_of_getCount {a b : VectorClock H}
    (hza : ∀ p ∈ a.entries, 0 < p.2) (hzb : ∀ p ∈ b.entries, 0 < p.2)
    (hc : ∀ h, getCount a h = getCount b h) : clockEq a b = true := by
  rw [clockEq_iff]
  intro h
  have hch := hc h
  rw [getCount, getCount] at hch
  cases hla : lookupE h a.entries with
  | some v =>
    have hv : 0 < v := hza _ (mem_of_lookupE hla)
    cases hlb : lookupE h b.entries with
    | some w =>
      rw [hla, hlb] at hch
      simp only [Option.getD_some] at hch
      rw [hch]
    | none =>
      rw [hla, hlb] at hch
      simp only [Option.getD_some, Option.getD_none] at hch
      omega
  | none =>
    cases hlb : lookupE h b.entries with
    | some w =>
      have hw : 0 < w := hzb _ (mem_of_lookupE hlb)
      rw [hla, hlb] at hch
      simp only [Option.getD_some, Option.getD_none] at hch
      omega
    | none => rfl

theorem getCount_of_clockEq {a b : VectorClock H}
    (he : clockEq a b = true) : ∀ h, getCount a h = getCount b h := by
  intro h
  rw [getCount, getCount, (clockEq_iff a b).mp he h]

/-!  Characterisation of the two dominance loops. -/

theorem loopSelf_eq_none_iff (otherE l : List (H × Nat)) :
    ∀ hs : Bool,
      (loopSelf otherE l hs = none ↔
        ∃ p ∈ l, (lookupE p.1 otherE).getD 0 < p.2) := by
  induction l with
  | nil => intro hs; simp [loopSelf]
  | cons p rest ih =>
    intro hs
    obtain ⟨host, self_n⟩ := p
    by_cases hgt : self_n > (lookupE host otherE).getD 0
    · simp only [loopSelf, if_pos hgt]
      constructor
      · intro _
        exact ⟨(host, self_n), List.mem_cons_self _ _, hgt⟩
      · intro _
        trivial
    · simp only [loopSelf, if_neg hgt]
      rw [ih]
      constructor
      · rintro ⟨q, hq, hlt⟩
        exact ⟨q, List.mem_cons_of_mem _ hq, hlt⟩
      · rintro ⟨q, hq, hlt⟩
        rcases List.mem_cons.mp hq with rfl | hq2
        · exact absurd hlt hgt
        · exact ⟨q, hq2, hlt⟩

theorem loopSelf_eq_some (otherE l : List (H × Nat)) :
    ∀ hs : Bool, (∀ p ∈ l, p.2 ≤ (lookupE p.1 otherE).getD 0) →
      loopSelf otherE l hs =
        some (hs || l.any (fun p => decide (p.2 < (lookupE p.1 otherE).getD 0))) := by
  induction l with
  | nil => intro hs _; simp [loopSelf]
  | cons p rest ih =>
    intro hs hle
    obtain ⟨host, self_n⟩ := p
    have h1 : self_n ≤ (lookupE host otherE).getD 0 := hle _ (List.mem_cons_self _ _)
    have hgt : ¬ self_n > (lookupE host otherE).getD 0 := not_lt.mpr h1
    simp only [loopSelf, if_neg hgt]
    rw [ih _ (fun q hq => hle q (List.mem_cons_of_mem _ hq))]
    simp [List.any_cons, Bool.or_assoc]

theorem loopOther_eq_none_iff (selfE l : List (H × Nat)) :
    ∀ hs : Bool,
      (loopOther selfE l hs = none ↔
        ∃ p ∈ l, p.2 < (lookupE p.1 selfE).getD 0) := by
  induction l with
  | nil => intro hs; simp [loopOther]
  | cons p rest ih =>
    intro hs
    obtain ⟨host, other_n⟩ := p
    by_cases hgt : (lookupE host selfE).getD 0 > other_n
    · simp only [loopOther, if_pos hgt]
      constructor
      · intro _
        exact ⟨(host, other_n), List.mem_cons_self _ _, hgt⟩
      · intro _
        trivial
    · simp only [loopOther, if_neg hgt]
      rw [ih]
      constructor
      · rintro ⟨q, hq, hlt⟩
        exact ⟨q, List.mem_cons_of_mem _ hq, hlt⟩
      · rintro ⟨q, hq, hlt⟩
        rcases List.mem_cons.mp hq with rfl | hq2
        · exact absurd hlt hgt
        · exact ⟨q, hq2, hlt⟩

theorem loopOther_eq_some (selfE l : List (H × Nat)) :
    ∀ hs : Bool, (∀ p ∈ l, (lookupE p.1 selfE).getD 0 ≤ p.2) →
      loopOther selfE l hs =
        some (hs || l.any (fun p => decide ((lookupE p.1 selfE).getD 0 < p.2))) := by
  induction l with
  | nil => intro hs _; simp [loopOther]
  | cons p rest ih =>
    intro hs hle
    obtain ⟨host, other_n⟩ := p
    have h1 : (lookupE host selfE).getD 0 ≤ other_n := hle _ (List.mem_cons_self _ _)
    have hgt : ¬ (lookupE host selfE).getD 0 > other_n := not_lt.mpr h1
    simp only [loopOther, if_neg hgt]
    rw [ih _ (fun q hq => hle q (List.mem_cons_of_mem _ hq))]
    simp [List.any_cons, Bool.or_assoc]

theorem superseded_by_eq_false_of_loop1 (a b : VectorClock H)
    (h1 : loopSelf b.entries a.entries false = none) :
    superseded_by a b = false := by
  unfold superseded_by
  rw [h1]

theorem superseded_by_eq_of_loops (a b : VectorClock H) (hs hs2 : Bool)
    (h1 : loopSelf b.entries a.entries false = some hs)
    (h2 : loopOther a.entries b.entries hs = some hs2) :
    superseded_by a b = hs2 := by
  unfold superseded_by
  rw [h1]
  show (match loopOther a.entries b.entries hs with
    | none => false
    | some x => x) = hs2
  rw [h2]

/-- The dominance test means exactly: pointwise `≤` on effective counts
together with at least one strict `<`. -/
theorem superseded_by_iff (a b : VectorClock H) :
    superseded_by a b = true ↔
      (∀ h, getCount a h ≤ getCount b h) ∧ (∃ h, getCount a h < getCount b h) := by
  by_cases hA : ∃ p ∈ a.entries, (lookupE p.1 b.entries).getD 0 < p.2
  · have h1 : loopSelf b.entries a.entries false = none :=
      (loopSelf_eq_none_iff _ _ _).mpr hA
    rw [superseded_by_eq_false_of_loop1 a b h1]
    simp only [Bool.false_eq_true, false_iff]
    obtain ⟨p, hp, hlt⟩ := hA
    have hpa : getCount a p.1 = p.2 := by
      rw [getCount, lookupE_of_mem a.nodupKeys hp]
      rfl
    rintro ⟨hle, -⟩
    have hd := hle p.1
    rw [hpa] at hd
    exact absurd hlt (not_lt.mpr hd)
  · push_neg at hA
    have hA' : ∀ p ∈ a.entries, p.2 ≤ (lookupE p.1 b.entries).getD 0 := hA
    have hB : ∀ p ∈ b.entries, (lookupE p.1 a.entries).getD 0 ≤ p.2 := by
      intro p hp
      by_contra hcon
      push_neg at hcon
      cases hla : lookupE p.1 a.entries with
      | none =>
        rw [hla] at hcon
        simp at hcon
      | some v =>
        rw [hla] at hcon
        have hma : (p.1, v) ∈ a.entries := mem_of_lookupE hla
        have hv := hA' (p.1, v) hma
        have hlb : lookupE p.1 b.entries = some p.2 :=
          lookupE_of_mem b.nodupKeys hp
        rw [hlb] at hv
        simp only [Option.getD_some] at hv hcon
        omega
    have h1 := loopSelf_eq_some b.entries a.entries false hA'
    have h2 := loopOther_eq_some a.entries b.entries
      (false || a.entries.any (fun p => decide (p.2 < (lookupE p.1 b.entries).getD 0))) hB
    have hss : superseded_by a b =
        ((a.entries.any fun p => decide (p.2 < (lookupE p.1 b.entries).getD 0)) ||
          b.entries.any fun p => decide ((lookupE p.1 a.entries).getD 0 < p.2)) := by
      have h3 := superseded_by_eq_of_loops a b _ _ h1 h2
      simpa using h3
    rw [hss]
    constructor
    · intro hany
      refine ⟨?_, ?_⟩
      · intro h
        cases hla : lookupE h a.entries with
        | none =>
          rw [getCount, hla]
          simp [getCount]
        | some v =>
          have hv := hA' (h, v) (mem_of_lookupE hla)
          rw [getCount, getCount, hla]
          exact hv
      · rw [Bool.or_eq_true, List.any_eq_true, List.any_eq_true] at hany
        rcases hany with ⟨p, hp, hd⟩ | ⟨p, hp, hd⟩
        · have hd' := of_decide_eq_true hd
          refine ⟨p.1, ?_⟩
          rw [getCount, getCount, lookupE_of_mem a.nodupKeys hp]
          exact hd'
        · have hd' := of_decide_eq_true hd
          refine ⟨p.1, ?_⟩
          rw [getCount, getCount, lookupE_of_mem b.nodupKeys hp]
          exact hd'
    · rintro ⟨-, h, hlt⟩
      rw [Bool.or_eq_true, List.any_eq_true, List.any_eq_true]
      have hbpos : 0 < getCount b h := Nat.lt_of_le_of_lt (Nat.zero_le _) hlt
      cases hlb : lookupE h b.entries with
      | none =>
        rw [getCount, hlb] at hbpos
        simp at hbpos
      | some w =>
        refine Or.inr ⟨(h, w), mem_of_lookupE hlb, ?_⟩
        rw [getCount, getCount, hlb] at hlt
        exact decide_eq_true hlt

/-- The two dominance tests can never both succeed. -/
theorem not_superseded_both {a b : VectorClock H}
    (h1 : superseded_by a b = true) (h2 : superseded_by b a = true) : False := by
  rw [superseded_by_iff] at h1 h2
  obtain ⟨hle1, h, hlt1⟩ := h1
  obtain ⟨hle2, -⟩ := h2
  exact absurd hlt1 (not_lt.mpr (hle2 h))

/-!  Case lemmas for `temporal_relation`. -/

theorem tr_equal_of {a b : VectorClock H} (hc : clockEq a b = true) :
    temporal_relation a b = TemporalRelation.Equal := by
  unfold temporal_relation
  simp [hc]

theorem tr_caused_of {a b : VectorClock H} (hc : clockEq a b = false)
    (hs : superseded_by a b = true) :
    temporal_relation a b = TemporalRelation.Caused := by
  unfold temporal_relation
  simp [hc, hs]

theorem tr_effectof_of {a b : VectorClock H} (hc : clockEq a b = false)
    (hs1 : superseded_by a b = false) (hs2 : superseded_by b a = true) :
    temporal_relation a b = TemporalRelation.EffectOf := by
  unfold temporal_relation
  simp [hc, hs1, hs2]

theorem tr_concurrent_of {a b : VectorClock H} (hc : clockEq a b = false)
    (hs1 : superseded_by a b = false) (hs2 : superseded_by b a = false) :
    temporal_relation a b = TemporalRelation.Concurrent := by
  unfold temporal_relation
  simp [hc, hs1, hs2]

theorem tr_eq_equal_iff (a b : VectorClock H) :
    temporal_relation a b = TemporalRelation.Equal ↔ clockEq a b = true := by
  constructor
  · intro he
    by_cases hc : clockEq a b
    · exact hc
    · exfalso
      simp only [Bool.not_eq_true] at hc
      unfold temporal_relation at he
      by_cases h1 : superseded_by a b <;> by_cases h2 : superseded_by b a <;>
        simp [hc, h1, h2] at he
  · exact tr_equal_of

/-!  Pointwise description of `merge_with`. -/

/-- Pointwise combination realised by `merge_with` on optional entries. -/
def optMax : Option Nat → Option Nat → Option Nat
  | none, o => o
  | some v, none => some v
  | some v, some w => some (max v w)

theorem lookupE_mergeEntries_not_mem (l : List (H × Nat)) (h : H) :
    ∀ acc, h ∉ l.map Prod.fst →
      lookupE h (mergeEntries acc l) = lookupE h acc := by
  induction l with
  | nil => intro acc _; rfl
  | cons p rest ih =>
    intro acc hnm
    obtain ⟨host, other_n⟩ := p
    simp only [List.map_cons, List.mem_cons] at hnm
    push_neg at hnm
    obtain ⟨hne, hnm2⟩ := hnm
    have hne2 : ¬ host = h := fun hh => hne hh.symm
    unfold mergeEntries
    cases hl : lookupE host acc with
    | none =>
      rw [ih _ hnm2, lookupE_setEntry, if_neg hne2]
    | some self_n =>
      by_cases hgt : other_n > self_n
      · simp only [if_pos hgt]
        rw [ih _ hnm2, lookupE_setEntry, if_neg hne2]
      · simp only [if_neg hgt]
        exact ih _ hnm2

theorem lookupE_mergeEntries (l : List (H × Nat)) :
    ∀ acc, (l.map Prod.fst).Nodup → ∀ h,
      lookupE h (mergeEntries acc l) = optMax (lookupE h acc) (lookupE h l) := by
  induction l with
  | nil =>
    intro acc _ h
    cases hx : lookupE h acc <;> simp [mergeEntries, lookupE, optMax, hx]
  | cons p rest ih =>
    intro acc hnd h
    obtain ⟨host, other_n⟩ := p
    simp only [List.map_cons, List.nodup_cons] at hnd
    obtain ⟨hhost, hnd2⟩ := hnd
    by_cases hh : host = h
    · subst hh
      have hrest : lookupE host rest = none := by
        rw [lookupE_eq_none_iff]
        simpa using hhost
      have hnm : host ∉ rest.map Prod.fst := by simpa using hhost
      unfold mergeEntries
      cases hl : lookupE host acc with
      | none =>
        rw [lookupE_mergeEntries_not_mem rest host _ hnm, lookupE_setEntry,
          if_pos rfl, lookupE_cons, if_pos rfl]
        rfl
      | some self_n =>
        by_cases hgt : other_n > self_n
        · simp only [if_pos hgt]
          rw [lookupE_mergeEntries_not_mem rest host _ hnm, lookupE_setEntry,
            if_pos rfl, lookupE_cons, if_pos rfl]
          have hmax : max self_n other_n = other_n := Nat.max_eq_right (Nat.le_of_lt hgt)
          simp [optMax, hmax]
        · simp only [if_neg hgt]
          rw [lookupE_mergeEntries_not_mem rest host _ hnm, hl, lookupE_cons,
            if_pos rfl]
          have hmax : max self_n other_n = self_n := Nat.max_eq_left (not_lt.mp hgt)
          simp [optMax, hmax]
    · have hcons : lookupE h ((host, other_n) :: rest) = lookupE h rest := by
        rw [lookupE_cons, if_neg hh]
      unfold mergeEntries
      cases hl : lookupE host acc with
      | none =>
        rw [ih _ hnd2 h, lookupE_setEntry, if_neg hh, hcons]
      | some self_n =>
        by_cases hgt : other_n > self_n
        · simp only [if_pos hgt]
          rw [ih _ hnd2 h, lookupE_setEntry, if_neg hh, hcons]
        · simp only [if_neg hgt]
          rw [ih _ hnd2 h, hcons]

theorem lookupE_merge_with (a b : VectorClock H) (h : H) :
    lookupE h (merge_with a b).entries =
      optMax (lookupE h a.entries) (lookupE h b.entries) :=
  lookupE_mergeEntries b.entries a.entries b.nodupKeys h

theorem getCount_merge_with (a b : VectorClock H) (h : H) :
    getCount (merge_with a b) h = max (getCount a h) (getCount b h) := by
  rw [getCount, lookupE_merge_with, getCount, getCount]
  cases lookupE h a.entries <;> cases lookupE h b.entries <;> simp [optMax]

/-!  Pointwise description of `from_vec` and `incremented`. -/

/-- Left-biased choice on optional entries (first hit wins). -/
def optOr : Option Nat → Option Nat → Option Nat
  | some v, _ => some v
  | none, o => o

theorem lookupE_append (l1 l2 : List (H × Nat)) (h : H) :
    lookupE h (l1 ++ l2) = optOr (lookupE h l1) (lookupE h l2) := by
  induction l1 with
  | nil => simp [lookupE, optOr]
  | cons p rest ih =>
    obtain ⟨k, v⟩ := p
    by_cases hk : k = h <;> simp [lookupE_cons, hk, ih, optOr]

theorem optOr_assoc (x y z : Option Nat) :
    optOr (optOr x y) z = optOr x (optOr y z) := by
  cases x <;> cases y <;> simp [optOr]

theorem lookupE_foldl_setEntry (v : List (H × Nat)) :
    ∀ acc h, lookupE h (v.foldl (fun acc p => setEntry acc p.1 p.2) acc) =
      optOr (lookupE h v.reverse) (lookupE h acc) := by
  induction v with
  | nil => intro acc h; simp [lookupE, optOr]
  | cons p rest ih =>
    intro acc h
    obtain ⟨k, w⟩ := p
    simp only [List.foldl_cons]
    rw [ih, List.reverse_cons, lookupE_append, optOr_assoc]
    congr 1
    rw [lookupE_setEntry]
    by_cases hk : k = h <;> simp [lookupE_cons, hk, optOr, lookupE]

theorem lookupE_from_vec (v : List (H × Nat)) (h : H) :
    lookupE h (from_vec v : VectorClock H).entries = lookupE h v.reverse := by
  show lookupE h (fromVecEntries v) = _
  rw [fromVecEntries, lookupE_foldl_setEntry]
  cases hx : lookupE h v.reverse <;> simp [optOr, lookupE]

theorem lookupE_incremented (c : VectorClock H) (host h : H) :
    lookupE h (incremented c host).entries =
      if host = h then some ((getCount c host + 1) % u64Size)
      else lookupE h c.entries := by
  unfold incremented
  cases hl : lookupE host c.entries with
  | none =>
    show lookupE h (setEntry c.entries host 1) = _
    rw [lookupE_setEntry, getCount, hl]
    have h1 : (Option.getD none 0 + 1) % u64Size = 1 := by
      norm_num [u64Size]
    rw [h1]
  | some v =>
    show lookupE h (setEntry c.entries host ((v + 1) % u64Size)) = _
    rw [lookupE_setEntry, getCount, hl]
    rfl

theorem getCount_incremented (c : VectorClock H) (host h : H) :
    getCount (incremented c host) h =
      if host = h then (getCount c host + 1) % u64Size else getCount c h := by
  rw [getCount, lookupE_incremented]
  by_cases hh : host = h <;> simp [hh, getCount]

/-!  Lookup is invariant under permutation of a key-distinct entry list. -/

theorem lookupE_perm {l l' : List (H × Nat)} (hnd : (l.map Prod.fst).Nodup)
    (hp : l.Perm l') (h : H) : lookupE h l = lookupE h l' := by
  have hkeys : (l.map Prod.fst).Perm (l'.map Prod.fst) := hp.map Prod.fst
  have hnd' : (l'.map Prod.fst).Nodup := hkeys.nodup_iff.mp hnd
  cases hl : lookupE h l with
  | some v => exact (lookupE_of_mem hnd' (hp.mem_iff.mp (mem_of_lookupE hl))).symm
  | none =>
    rw [lookupE_eq_none_iff] at hl
    rw [eq_comm, lookupE_eq_none_iff]
    intro hm
    exact hl (hkeys.mem_iff.mpr hm)

/-!  Invariant predicates. -/

/-- Invariant asserted by the spec: every stored count is at least 1. -/
def ZeroFree (c : VectorClock H) : Prop := ∀ p ∈ c.entries, 0 < p.2

/-- Every stored count is a valid `u64` value. -/
def CountsBounded (c : VectorClock H) : Prop := ∀ p ∈ c.entries, p.2 < u64Size

instance (c : VectorClock H) : Decidable (ZeroFree c) :=
  inferInstanceAs (Decidable (∀ p ∈ c.entries, 0 < p.2))

instance (c : VectorClock H) : Decidable (CountsBounded c) :=
  inferInstanceAs (Decidable (∀ p ∈ c.entries, p.2 < u64Size))

theorem zeroFree_lookup {c : VectorClock H} (hz : ZeroFree c) {h : H} {v : Nat}
    (hl : lookupE h c.entries = some v) : 0 < v :=
  hz _ (mem_of_lookupE hl)

/-!  Further helper lemmas used by the claim theorems. -/

theorem mem_setEntry {l : List (H × Nat)} {h : H} {n : Nat} {p : H × Nat}
    (hp : p ∈ setEntry l h n) : p = (h, n) ∨ p ∈ l := by
  induction l with
  | nil => simpa [setEntry] using hp
  | cons q rest ih =>
    obtain ⟨k, v⟩ := q
    by_cases hk : k = h
    · subst hk
      simp only [setEntry, if_pos rfl] at hp
      rcases List.mem_cons.mp hp with rfl | hh
      · exact Or.inl rfl
      · exact Or.inr (List.mem_cons_of_mem _ hh)
    · simp only [setEntry, if_neg hk] at hp
      rcases List.mem_cons.mp hp with rfl | hh
      · exact Or.inr (List.mem_cons_self _ _)
      · rcases ih hh with h1 | h2
        · exact Or.inl h1
        · exact Or.inr (List.mem_cons_of_mem _ h2)

theorem entries_incremented (c : VectorClock H) (host : H) :
    (incremented c host).entries =
      setEntry c.entries host ((getCount c host + 1) % u64Size) := by
  unfold incremented
  cases hl : lookupE host c.entries with
  | none =>
    show setEntry c.entries host 1 = _
    rw [getCount, hl]
    have h1 : (Option.getD none 0 + 1) % u64Size = 1 := by decide
    rw [h1]
  | some v =>
    show setEntry c.entries host ((v + 1) % u64Size) = _
    rw [getCount, hl]
    rfl

theorem tr_eq_caused_iff (a b : VectorClock H) :
    temporal_relation a b = TemporalRelation.Caused ↔
      clockEq a b = false ∧ superseded_by a b = true := by
  constructor
  · intro he
    by_cases hc : clockEq a b
    · rw [tr_equal_of hc] at he
      cases he
    · simp only [Bool.not_eq_true] at hc
      by_cases h1 : superseded_by a b
      · exact ⟨hc, h1⟩
      · exfalso
        simp only [Bool.not_eq_true] at h1
        by_cases h2 : superseded_by b a
        · rw [tr_effectof_of hc h1 h2] at he
          cases he
        · simp only [Bool.not_eq_true] at h2
          rw [tr_concurrent_of hc h1 h2] at he
          cases he
  · rintro ⟨hc, hs⟩
    exact tr_caused_of hc hs

theorem tr_eq_effectof_iff (a b : VectorClock H) :
    temporal_relation a b = TemporalRelation.EffectOf ↔
      clockEq a b = false ∧ superseded_by a b = false ∧
        superseded_by b a = true := by
  constructor
  · intro he
    by_cases hc : clockEq a b
    · rw [tr_equal_of hc] at he
      cases he
    · simp only [Bool.not_eq_true] at hc
      by_cases h1 : superseded_by a b
      · rw [tr_caused_of hc h1] at he
        cases he
      · simp only [Bool.not_eq_true] at h1
        by_cases h2 : superseded_by b a
        · exact ⟨hc, h1, h2⟩
        · exfalso
          simp only [Bool.not_eq_true] at h2
          rw [tr_concurrent_of hc h1 h2] at he
          cases he
  · rintro ⟨hc, h1, h2⟩
    exact tr_effectof_of hc h1 h2

theorem tr_eq_concurrent_iff (a b : VectorClock H) :
    temporal_relation a b = TemporalRelation.Concurrent ↔
      clockEq a b = false ∧ superseded_by a b = false ∧
        superseded_by b a = false := by
  constructor
  · intro he
    by_cases hc : clockEq a b
    · rw [tr_equal_of hc] at he
      cases he
    · simp only [Bool.not_eq_true] at hc
      by_cases h1 : superseded_by a b
      · rw [tr_caused_of hc h1] at he
        cases he
      · simp only [Bool.not_eq_true] at h1
        by_cases h2 : superseded_by b a
        · rw [tr_effectof_of hc h1 h2] at he
          cases he
        · simp only [Bool.not_eq_true] at h2
          exact ⟨hc, h1, h2⟩
  · rintro ⟨hc, h1, h2⟩
    exact tr_concurrent_of hc h1 h2

omit [DecidableEq H] in
theorem to_vec_eq_entries (c : VectorClock H) : to_vec c = c.entries := by
  unfold to_vec
  simp

theorem clockEq_from_vec_of_perm {c : VectorClock H} {v : List (H × Nat)}
    (hperm : v.Perm c.entries) : clockEq (from_vec v) c = true := by
  rw [clockEq_iff]
  intro h
  rw [lookupE_from_vec]
  have hrev : c.entries.Perm v.reverse := (v.reverse_perm.trans hperm).symm
  exact (lookupE_perm c.nodupKeys hrev h).symm

/-- One side of the merge-dominance property: the merge result relates to
the left input as `Equal` exactly when `==` holds, else as `EffectOf`
(assuming the right input stores no explicit zeros). -/
theorem merge_dominates_left {a b : VectorClock H} (hb : ZeroFree b) :
    clockEq (merge_with a b) a = true ∧
      temporal_relation (merge_with a b) a = TemporalRelation.Equal ∨
    clockEq (merge_with a b) a = false ∧
      temporal_relation (merge_with a b) a = TemporalRelation.EffectOf := by
  by_cases hc : clockEq (merge_with a b) a
  · exact Or.inl ⟨hc, tr_equal_of hc⟩
  · simp only [Bool.not_eq_true] at hc
    refine Or.inr ⟨hc, ?_⟩
    have hge : ∀ h, getCount a h ≤ getCount (merge_with a b) h := by
      intro h
      rw [getCount_merge_with]
      exact Nat.le_max_left _ _
    have hex : ∃ h, getCount a h < getCount (merge_with a b) h := by
      have hne : ¬ ∀ h, lookupE h (merge_with a b).entries = lookupE h a.entries := by
        intro hall
        rw [← clockEq_iff] at hall
        rw [hall] at hc
        cases hc
      push_neg at hne
      obtain ⟨h, hdiff⟩ := hne
      refine ⟨h, ?_⟩
      rw [lookupE_merge_with] at hdiff
      rw [getCount, getCount, lookupE_merge_with]
      cases hla : lookupE h a.entries with
      | none =>
        cases hlb : lookupE h b.entries with
        | none =>
          rw [hla, hlb] at hdiff
          exact absurd rfl hdiff
        | some w =>
          simpa [optMax] using zeroFree_lookup hb hlb
      | some v =>
        cases hlb : lookupE h b.entries with
        | none =>
          rw [hla, hlb] at hdiff
          exact absurd rfl hdiff
        | some w =>
          rw [hla, hlb] at hdiff
          simp only [optMax, ne_eq, Option.some.injEq] at hdiff
          simp only [optMax, Option.getD_some]
          rcases max_choice v w with hm | hm
          · exact absurd hm hdiff
          · rw [hm]
            rcases Nat.lt_or_ge v w with hvw | hvw
            · exact hvw
            · exact absurd (Nat.max_eq_left hvw) hdiff
    have hssa : superseded_by a (merge_with a b) = true :=
      (superseded_by_iff _ _).mpr ⟨hge, hex⟩
    have hssm : superseded_by (merge_with a b) a = false := by
      rw [Bool.eq_false_iff]
      intro hcon
      exact not_superseded_both hcon hssa
    exact tr_effectof_of hc hssm hssa

/-- The right-input side of merge dominance (assuming the left input
stores no explicit zeros). -/
theorem merge_dominates_right {a b : VectorClock H} (ha : ZeroFree a) :
    clockEq (merge_with a b) b = true ∧
      temporal_relation (merge_with a b) b = TemporalRelation.Equal ∨
    clockEq (merge_with a b) b = false ∧
      temporal_relation (merge_with a b) b = TemporalRelation.EffectOf := by
  by_cases hc : clockEq (merge_with a b) b
  · exact Or.inl ⟨hc, tr_equal_of hc⟩
  · simp only [Bool.not_eq_true] at hc
    refine Or.inr ⟨hc, ?_⟩
    have hge : ∀ h, getCount b h ≤ getCount (merge_with a b) h := by
      intro h
      rw [getCount_merge_with]
      exact Nat.le_max_right _ _
    have hex : ∃ h, getCount b h < getCount (merge_with a b) h := by
      have hne : ¬ ∀ h, lookupE h (merge_with a b).entries = lookupE h b.entries := by
        intro hall
        rw [← clockEq_iff] at hall
        rw [hall] at hc
        cases hc
      push_neg at hne
      obtain ⟨h, hdiff⟩ := hne
      refine ⟨h, ?_⟩
      rw [lookupE_merge_with] at hdiff
      rw [getCount, getCount, lookupE_merge_with]
      cases hla : lookupE h a.entries with
      | none =>
        cases hlb : lookupE h b.entries with
        | none =>
          rw [hla, hlb] at hdiff
          exact absurd rfl hdiff
        | some w =>
          rw [hla, hlb] at hdiff
          exact absurd rfl hdiff
      | some v =>
        cases hlb : lookupE h b.entries with
        | none =>
          simpa [optMax] using zeroFree_lookup ha hla
        | some w =>
          rw [hla, hlb] at hdiff
          simp only [optMax, ne_eq, Option.some.injEq] at hdiff
          simp only [optMax, Option.getD_some]
          rcases max_choice v w with hm | hm
          · rw [hm]
            rcases Nat.lt_or_ge w v with hwv | hwv
            · exact hwv
            · exact absurd (Nat.max_eq_right hwv) hdiff
          · exact absurd hm hdiff
    have hssb : superseded_by b (merge_with a b) = true :=
      (superseded_by_iff _ _).mpr ⟨hge, hex⟩
    have hssm : superseded_by (merge_with a b) b = false := by
      rw [Bool.eq_false_iff]
      intro hcon
      exact not_superseded_both hcon hssb
    exact tr_effectof_of hc hssm hssb

/-!  Claim theorems. -/

/-- C2 (amended): `temporal_relation` returns `Equal` iff the two entry
maps are identical as maps (lookup for every host agrees, zero entries
included); for clocks storing no explicit zero entries this coincides with
agreement of the effective (explicit or implicit-zero) counters.  A clock
storing an explicit 0 entry is NOT `Equal` to the clock omitting that
host (see the counterexample). -/
theorem claim2_equal_iff (a b : VectorClock H) :
    (temporal_relation a b = TemporalRelation.Equal ↔
      ∀ h, lookupE h a.entries = lookupE h b.entries) ∧
    (ZeroFree a → ZeroFree b →
      (temporal_relation a b = TemporalRelation.Equal ↔
        ∀ h, getCount a h = getCount b h)) := by
  constructor
  · rw [tr_eq_equal_iff]
    exact clockEq_iff a b
  · intro hza hzb
    rw [tr_eq_equal_iff]
    constructor
    · exact fun he => getCount_of_clockEq he
    · exact fun hcnt => clockEq_of_getCount hza hzb hcnt

/-- C2 counterexample: the clock with the explicit entry `0 ↦ 0` has the
same effective counter (zero) as the empty clock for every host, yet
`temporal_relation` classifies the pair as `Concurrent`, not `Equal`. -/
theorem claim2_counterexample :
    temporal_relation (from_vec [((0 : Nat), 0)]) (from_vec []) =
      TemporalRelation.Concurrent := by
  decide

/-- C2 witness: instantiation of the amended claim at a concrete pair. -/
theorem claim2_witness :
    temporal_relation (from_vec [((0 : Nat), 1)]) (from_vec [((0 : Nat), 1)]) =
      TemporalRelation.Equal :=
  ((claim2_equal_iff (from_vec [((0 : Nat), 1)]) (from_vec [((0 : Nat), 1)])).1).mpr
    (fun _ => rfl)

/-- C3: `temporal_relation` always returns exactly one of the four
variants, and it is internally consistent: `Caused` in one direction is
`EffectOf` in the other, while `Equal` and `Concurrent` are symmetric. -/
theorem claim3_relation_consistency (a b : VectorClock H) :
    (temporal_relation a b = TemporalRelation.Equal ∨
      temporal_relation a b = TemporalRelation.Caused ∨
      temporal_relation a b = TemporalRelation.EffectOf ∨
      temporal_relation a b = TemporalRelation.Concurrent) ∧
    (temporal_relation a b = TemporalRelation.Caused ↔
      temporal_relation b a = TemporalRelation.EffectOf) ∧
    (temporal_relation a b = TemporalRelation.Equal ↔
      temporal_relation b a = TemporalRelation.Equal) ∧
    (temporal_relation a b = TemporalRelation.Concurrent ↔
      temporal_relation b a = TemporalRelation.Concurrent) := by
  refine ⟨?_, ?_, ?_, ?_⟩
  · cases temporal_relation a b with
    | Equal => exact Or.inl rfl
    | Caused => exact Or.inr (Or.inl rfl)
    | EffectOf => exact Or.inr (Or.inr (Or.inl rfl))
    | Concurrent => exact Or.inr (Or.inr (Or.inr rfl))
  · rw [tr_eq_caused_iff, tr_eq_effectof_iff]
    constructor
    · rintro ⟨hc, hs⟩
      refine ⟨by rw [clockEq_symm b a]; exact hc, ?_, hs⟩
      rw [Bool.eq_false_iff]
      intro hcon
      exact not_superseded_both hcon hs
    · rintro ⟨hc, -, h2⟩
      exact ⟨by rw [clockEq_symm a b]; exact hc, h2⟩
  · rw [tr_eq_equal_iff, tr_eq_equal_iff, clockEq_symm a b]
  · rw [tr_eq_concurrent_iff, tr_eq_concurrent_iff, clockEq_symm a b]
    constructor
    · rintro ⟨hc, h1, h2⟩
      exact ⟨hc, h2, h1⟩
    · rintro ⟨hc, h1, h2⟩
      exact ⟨hc, h2, h1⟩

/-- C3 witness: instantiation at a concrete concurrent pair of clocks. -/
theorem claim3_witness :
    (temporal_relation (from_vec [((0 : Nat), 1)]) (from_vec [((1 : Nat), 1)]) =
        TemporalRelation.Equal ∨
      temporal_relation (from_vec [((0 : Nat), 1)]) (from_vec [((1 : Nat), 1)]) =
        TemporalRelation.Caused ∨
      temporal_relation (from_vec [((0 : Nat), 1)]) (from_vec [((1 : Nat), 1)]) =
        TemporalRelation.EffectOf ∨
      temporal_relation (from_vec [((0 : Nat), 1)]) (from_vec [((1 : Nat), 1)]) =
        TemporalRelation.Concurrent) ∧
    (temporal_relation (from_vec [((0 : Nat), 1)]) (from_vec [((1 : Nat), 1)]) =
        TemporalRelation.Caused ↔
      temporal_relation (from_vec [((1 : Nat), 1)]) (from_vec [((0 : Nat), 1)]) =
        TemporalRelation.EffectOf) ∧
    (temporal_relation (from_vec [((0 : Nat), 1)]) (from_vec [((1 : Nat), 1)]) =
        TemporalRelation.Equal ↔
      temporal_relation (from_vec [((1 : Nat), 1)]) (from_vec [((0 : Nat), 1)]) =
        TemporalRelation.Equal) ∧
    (temporal_relation (from_vec [((0 : Nat), 1)]) (from_vec [((1 : Nat), 1)]) =
        TemporalRelation.Concurrent ↔
      temporal_relation (from_vec [((1 : Nat), 1)]) (from_vec [((0 : Nat), 1)]) =
        TemporalRelation.Concurrent) :=
  claim3_relation_consistency (from_vec [((0 : Nat), 1)]) (from_vec [((1 : Nat), 1)])

/-- C4: `merge_with` is the pointwise least upper bound: for every host
the effective count of the result is the maximum of the inputs' effective
counts, hence at least either input's count. -/
theorem claim4_merge_lub (a b : VectorClock H) (h : H) :
    getCount (merge_with a b) h = max (getCount a h) (getCount b h) ∧
    getCount a h ≤ getCount (merge_with a b) h ∧
    getCount b h ≤ getCount (merge_with a b) h :=
  ⟨getCount_merge_with a b h,
   by rw [getCount_merge_with]; exact Nat.le_max_left _ _,
   by rw [getCount_merge_with]; exact Nat.le_max_right _ _⟩

/-- C4 witness: instantiation at concrete clocks and host. -/
theorem claim4_witness :
    getCount (merge_with (from_vec [((0 : Nat), 1), (1, 5)]) (from_vec [((0 : Nat), 3)])) 0 =
      max (getCount (from_vec [((0 : Nat), 1), (1, 5)]) 0)
        (getCount (from_vec [((0 : Nat), 3)]) 0) ∧
    getCount (from_vec [((0 : Nat), 1), (1, 5)]) 0 ≤
      getCount (merge_with (from_vec [((0 : Nat), 1), (1, 5)]) (from_vec [((0 : Nat), 3)])) 0 ∧
    getCount (from_vec [((0 : Nat), 3)]) 0 ≤
      getCount (merge_with (from_vec [((0 : Nat), 1), (1, 5)]) (from_vec [((0 : Nat), 3)])) 0 :=
  claim4_merge_lub (from_vec [((0 : Nat), 1), (1, 5)]) (from_vec [((0 : Nat), 3)]) 0

/-- C9: rebuilding a clock from its exported entries reproduces a clock
`==`-equal to the original, and any permutation of the exported list
rebuilds the same clock. -/
theorem claim9_round_trip (c : VectorClock H) (v : List (H × Nat))
    (hperm : v.Perm (to_vec c)) :
    clockEq (from_vec (to_vec c)) c = true ∧ clockEq (from_vec v) c = true := by
  rw [to_vec_eq_entries] at hperm ⊢
  exact ⟨clockEq_from_vec_of_perm (List.Perm.refl _), clockEq_from_vec_of_perm hperm⟩

/-- C9 witness: round trip through a permuted entry list of a concrete
clock. -/
theorem claim9_witness :
    [((1 : Nat), 2), (0, 1)].Perm (to_vec (from_vec [((0 : Nat), 1), (1, 2)])) ∧
    (clockEq (from_vec (to_vec (from_vec [((0 : Nat), 1), (1, 2)])))
        (from_vec [((0 : Nat), 1), (1, 2)]) = true ∧
      clockEq (from_vec [((1 : Nat), 2), (0, 1)])
        (from_vec [((0 : Nat), 1), (1, 2)]) = true) :=
  ⟨by decide,
   claim9_round_trip (from_vec [((0 : Nat), 1), (1, 2)]) [((1 : Nat), 2), (0, 1)]
     (by decide)⟩

/-- C10: `from_vec` has last-write-wins semantics: the clock built from a
list ending in a pair `(h, n)` stores `n` for `h` regardless of earlier
pairs for `h`, and in general the stored entry for a host is the last
pair listing that host. -/
theorem claim10_from_vec_last_write (v : List (H × Nat)) (h : H) (n : Nat) :
    lookupE h (from_vec (v ++ [(h, n)]) : VectorClock H).entries = some n ∧
    lookupE h (from_vec v : VectorClock H).entries = lookupE h v.reverse := by
  constructor
  · rw [lookupE_from_vec, List.reverse_append]
    simp [lookupE_cons]
  · exact lookupE_from_vec v h

/-- C10 witness: host 0 listed twice, with counts 5 then 2; the resulting
count is 2 (the last pair), not the maximum 5 nor the sum 7. -/
theorem claim10_witness :
    lookupE 0 (from_vec ([((0 : Nat), 5)] ++ [(0, 2)]) : VectorClock Nat).entries =
      some 2 ∧
    lookupE 0 (from_vec [((0 : Nat), 5)] : VectorClock Nat).entries =
      lookupE 0 ([((0 : Nat), 5)].reverse) :=
  claim10_from_vec_last_write [((0 : Nat), 5)] 0 2

/-- C1 (amended): for clocks storing no explicit zero entries, the merge
result relates to each input as `EffectOf`, or as `Equal` exactly when
that input is already `==` the merge result; it is never `Caused` by or
`Concurrent` with either input.  (With an explicit zero entry the merge
result can be `Concurrent` with an input; see the counterexample.) -/
theorem claim1_merge_dominance (a b : VectorClock H)
    (ha : ZeroFree a) (hb : ZeroFree b) :
    (clockEq (merge_with a b) a = true ∧
        temporal_relation (merge_with a b) a = TemporalRelation.Equal ∨
      clockEq (merge_with a b) a = false ∧
        temporal_relation (merge_with a b) a = TemporalRelation.EffectOf) ∧
    (clockEq (merge_with a b) b = true ∧
        temporal_relation (merge_with a b) b = TemporalRelation.Equal ∨
      clockEq (merge_with a b) b = false ∧
        temporal_relation (merge_with a b) b = TemporalRelation.EffectOf) :=
  ⟨merge_dominates_left hb, merge_dominates_right ha⟩

/-- C1 counterexample: merging the empty clock with the clock holding the
explicit entry `0 ↦ 0` yields a clock that `temporal_relation` classifies
as `Concurrent` with the empty input, although the claim allows only
`EffectOf` or `Equal`. -/
theorem claim1_counterexample :
    temporal_relation
      (merge_with (from_vec ([] : List (Nat × Nat))) (from_vec [(0, 0)]))
      (from_vec []) = TemporalRelation.Concurrent := by
  decide

/-- C1 witness: instantiation of the amended claim at two concrete
zero-free clocks. -/
theorem claim1_witness :
    ZeroFree (from_vec [((0 : Nat), 1)]) ∧ ZeroFree (from_vec [((1 : Nat), 2)]) ∧
    ((clockEq (merge_with (from_vec [((0 : Nat), 1)]) (from_vec [((1 : Nat), 2)]))
          (from_vec [((0 : Nat), 1)]) = true ∧
        temporal_relation
          (merge_with (from_vec [((0 : Nat), 1)]) (from_vec [((1 : Nat), 2)]))
          (from_vec [((0 : Nat), 1)]) = TemporalRelation.Equal ∨
      clockEq (merge_with (from_vec [((0 : Nat), 1)]) (from_vec [((1 : Nat), 2)]))
          (from_vec [((0 : Nat), 1)]) = false ∧
        temporal_relation
          (merge_with (from_vec [((0 : Nat), 1)]) (from_vec [((1 : Nat), 2)]))
          (from_vec [((0 : Nat), 1)]) = TemporalRelation.EffectOf) ∧
     (clockEq (merge_with (from_vec [((0 : Nat), 1)]) (from_vec [((1 : Nat), 2)]))
          (from_vec [((1 : Nat), 2)]) = true ∧
        temporal_relation
          (merge_with (from_vec [((0 : Nat), 1)]) (from_vec [((1 : Nat), 2)]))
          (from_vec [((1 : Nat), 2)]) = TemporalRelation.Equal ∨
      clockEq (merge_with (from_vec [((0 : Nat), 1)]) (from_vec [((1 : Nat), 2)]))
          (from_vec [((1 : Nat), 2)]) = false ∧
        temporal_relation
          (merge_with (from_vec [((0 : Nat), 1)]) (from_vec [((1 : Nat), 2)]))
          (from_vec [((1 : Nat), 2)]) = TemporalRelation.EffectOf)) :=
  ⟨by decide, by decide,
   claim1_merge_dominance (from_vec [((0 : Nat), 1)]) (from_vec [((1 : Nat), 2)])
     (by decide) (by decide)⟩

/-- C5 (amended): whenever the effective count of `host` admits a `u64`
increment without overflow, the original clock is `Caused` by its
increment and the increment is an `EffectOf` the original.  (At
`u64::MAX` the unguarded addition wraps the stored count to an explicit
0 and the relation flips; see the counterexample.) -/
theorem claim5_increment_monotone (c : VectorClock H) (host : H)
    (hcap : getCount c host + 1 < u64Size) :
    temporal_relation c (incremented c host) = TemporalRelation.Caused ∧
    temporal_relation (incremented c host) c = TemporalRelation.EffectOf := by
  have hmod : (getCount c host + 1) % u64Size = getCount c host + 1 :=
    Nat.mod_eq_of_lt hcap
  have hcnt : ∀ h, getCount (incremented c host) h =
      if host = h then getCount c host + 1 else getCount c h := by
    intro h
    rw [getCount_incremented]
    by_cases hh : host = h
    · rw [if_pos hh, if_pos hh, hmod]
    · rw [if_neg hh, if_neg hh]
  have hne : clockEq c (incremented c host) = false := by
    rw [Bool.eq_false_iff]
    intro hcon
    have hcc := getCount_of_clockEq hcon host
    rw [hcnt host, if_pos rfl] at hcc
    omega
  have hss : superseded_by c (incremented c host) = true := by
    rw [superseded_by_iff]
    constructor
    · intro h
      rw [hcnt h]
      by_cases hh : host = h
      · rw [if_pos hh]
        subst hh
        omega
      · rw [if_neg hh]
    · refine ⟨host, ?_⟩
      rw [hcnt host, if_pos rfl]
      omega
  have hss2 : superseded_by (incremented c host) c = false := by
    rw [Bool.eq_false_iff]
    intro hcon
    exact not_superseded_both hcon hss
  have hne2 : clockEq (incremented c host) c = false := by
    rw [clockEq_symm (incremented c host) c]
    exact hne
  exact ⟨tr_caused_of hne hss, tr_effectof_of hne2 hss2 hss⟩

/-- C5 counterexample: on a clock storing `u64::MAX` for host 0, the
increment wraps the count to 0, so the original clock is classified as an
`EffectOf` (not `Caused` by) its own increment. -/
theorem claim5_counterexample :
    temporal_relation (from_vec [((0 : Nat), u64Size - 1)])
        (incremented (from_vec [((0 : Nat), u64Size - 1)]) 0) =
      TemporalRelation.EffectOf ∧
    getCount (incremented (from_vec [((0 : Nat), u64Size - 1)]) 0) 0 = 0 := by
  decide

/-- C5 witness: instantiation of the amended claim away from the overflow
boundary. -/
theorem claim5_witness :
    getCount (from_vec [((0 : Nat), 3)]) 0 + 1 < u64Size ∧
    (temporal_relation (from_vec [((0 : Nat), 3)])
        (incremented (from_vec [((0 : Nat), 3)]) 0) = TemporalRelation.Caused ∧
      temporal_relation (incremented (from_vec [((0 : Nat), 3)]) 0)
        (from_vec [((0 : Nat), 3)]) = TemporalRelation.EffectOf) :=
  ⟨by decide, claim5_increment_monotone (from_vec [((0 : Nat), 3)]) 0 (by decide)⟩

/-- C6 (corrected): appending a 0-count pair for a fresh host leaves every
effective counter unchanged, but the resulting clock is NOT observationally
equivalent to the clock omitting that pair: `temporal_relation` between
the two answers `Concurrent`, not `Equal`. -/
theorem claim6_zero_entry_not_equivalent (v : List (H × Nat)) (h : H)
    (hnm : h ∉ v.map Prod.fst) :
    (∀ g, getCount (from_vec (v ++ [(h, 0)]) : VectorClock H) g =
        getCount (from_vec v : VectorClock H) g) ∧
    temporal_relation (from_vec (v ++ [(h, 0)])) (from_vec v) =
      TemporalRelation.Concurrent := by
  have hrev : ∀ g, lookupE g (from_vec (v ++ [(h, 0)]) : VectorClock H).entries =
      if h = g then some 0 else lookupE g v.reverse := by
    intro g
    rw [lookupE_from_vec]
    simp only [List.reverse_append, List.reverse_cons, List.reverse_nil,
      List.nil_append, List.singleton_append]
    rw [lookupE_cons]
  have hvnone : lookupE h v.reverse = none := by
    rw [lookupE_eq_none_iff]
    intro hc
    have hc2 : h ∈ (v.map Prod.fst).reverse := by
      rw [← List.map_reverse]
      exact hc
    exact hnm (List.mem_reverse.mp hc2)
  have hcount : ∀ g, getCount (from_vec (v ++ [(h, 0)]) : VectorClock H) g =
      getCount (from_vec v : VectorClock H) g := by
    intro g
    rw [getCount, getCount, hrev g, lookupE_from_vec]
    by_cases hg : h = g
    · rw [if_pos hg]
      subst hg
      rw [hvnone]
      rfl
    · rw [if_neg hg]
  refine ⟨hcount, ?_⟩
  have hne : clockEq (from_vec (v ++ [(h, 0)])) (from_vec v) = false := by
    rw [Bool.eq_false_iff]
    intro hcon
    have hcc := (clockEq_iff _ _).mp hcon h
    rw [hrev h, if_pos rfl, lookupE_from_vec, hvnone] at hcc
    cases hcc
  have hss1 : superseded_by (from_vec (v ++ [(h, 0)])) (from_vec v) = false := by
    rw [Bool.eq_false_iff]
    intro hcon
    obtain ⟨-, g, hlt⟩ := (superseded_by_iff _ _).mp hcon
    rw [hcount g] at hlt
    omega
  have hss2 : superseded_by (from_vec v) (from_vec (v ++ [(h, 0)])) = false := by
    rw [Bool.eq_false_iff]
    intro hcon
    obtain ⟨-, g, hlt⟩ := (superseded_by_iff _ _).mp hcon
    rw [hcount g] at hlt
    omega
  exact tr_concurrent_of hne hss1 hss2

/-- C6 counterexample: the clocks built from `[(1, 0)]` and from the same
sequence with that 0-valued pair omitted are distinguishable: compared
against the empty clock, the first answers `Concurrent` while the second
answers `Equal`. -/
theorem claim6_counterexample :
    temporal_relation (from_vec [((1 : Nat), 0)]) (from_vec []) =
        TemporalRelation.Concurrent ∧
    temporal_relation (from_vec ([] : List (Nat × Nat))) (from_vec []) =
        TemporalRelation.Equal := by
  decide

/-- C6 witness: instantiation of the corrected claim at a concrete
sequence and fresh host. -/
theorem claim6_witness :
    getCount (from_vec ([((0 : Nat), 2)] ++ [(1, 0)]) : VectorClock Nat) 1 =
      getCount (from_vec [((0 : Nat), 2)] : VectorClock Nat) 1 ∧
    temporal_relation (from_vec ([((0 : Nat), 2)] ++ [(1, 0)]))
        (from_vec [((0 : Nat), 2)]) = TemporalRelation.Concurrent :=
  ⟨(claim6_zero_entry_not_equivalent [((0 : Nat), 2)] 1 (by decide)).1 1,
   (claim6_zero_entry_not_equivalent [((0 : Nat), 2)] 1 (by decide)).2⟩

/-- C7 (amended): `new` stores no entries, and `incremented` (absent
`u64` wrap-around) and `merge_with` preserve the all-counts-at-least-1
invariant; `from_vec`, however, stores 0-valued input pairs explicitly,
so the invariant does not hold for every publicly constructed clock (see
the counterexample). -/
theorem claim7_invariant_preservation (a b : VectorClock H) (host : H)
    (ha : ZeroFree a) (hb : ZeroFree b)
    (hcap : getCount a host + 1 < u64Size) :
    ZeroFree (new : VectorClock H) ∧ ZeroFree (incremented a host) ∧
    ZeroFree (merge_with a b) := by
  refine ⟨?_, ?_, ?_⟩
  · intro p hp
    exact absurd hp (List.not_mem_nil p)
  · intro p hp
    rw [entries_incremented] at hp
    rcases mem_setEntry hp with hpe | hm
    · rw [hpe]
      show 0 < (getCount a host + 1) % u64Size
      rw [Nat.mod_eq_of_lt hcap]
      omega
    · exact ha _ hm
  · intro p hp
    have hl : lookupE p.1 (merge_with a b).entries = some p.2 :=
      lookupE_of_mem (merge_with a b).nodupKeys hp
    rw [lookupE_merge_with] at hl
    cases hla : lookupE p.1 a.entries with
    | none =>
      cases hlb : lookupE p.1 b.entries with
      | none =>
        rw [hla, hlb] at hl
        cases hl
      | some w =>
        rw [hla, hlb] at hl
        simp only [optMax, Option.some.injEq] at hl
        rw [← hl]
        exact zeroFree_lookup hb hlb
    | some v =>
      cases hlb : lookupE p.1 b.entries with
      | none =>
        rw [hla, hlb] at hl
        simp only [optMax, Option.some.injEq] at hl
        rw [← hl]
        exact zeroFree_lookup ha hla
      | some w =>
        rw [hla, hlb] at hl
        simp only [optMax, Option.some.injEq] at hl
        have hv := zeroFree_lookup ha hla
        rw [← hl]
        exact Nat.lt_of_lt_of_le hv (Nat.le_max_left v w)

/-- C7 counterexample: `from_vec` is a public operation, yet the clock it
builds from `[(0, 0)]` stores an explicit 0 entry, violating the claimed
invariant. -/
theorem claim7_counterexample : ¬ ZeroFree (from_vec [((0 : Nat), 0)]) := by
  decide

/-- C7 witness: instantiation of the amended claim at concrete zero-free
clocks. -/
theorem claim7_witness :
    ZeroFree (from_vec [((0 : Nat), 1)]) ∧ ZeroFree (from_vec [((1 : Nat), 3)]) ∧
    getCount (from_vec [((0 : Nat), 1)]) 0 + 1 < u64Size ∧
    (ZeroFree (new : VectorClock Nat) ∧
      ZeroFree (incremented (from_vec [((0 : Nat), 1)]) 0) ∧
      ZeroFree (merge_with (from_vec [((0 : Nat), 1)]) (from_vec [((1 : Nat), 3)]))) :=
  ⟨by decide, by decide, by decide,
   claim7_invariant_preservation (from_vec [((0 : Nat), 1)]) (from_vec [((1 : Nat), 3)]) 0
     (by decide) (by decide) (by decide)⟩

/-- C8: `incremented` is total and returns a clock with valid `u64`
counts for every input clock and host, including a clock whose stored
count for that host is `u64::MAX`: there the unguarded addition wraps
(release-profile semantics) instead of failing. -/
theorem claim8_increment_total (c : VectorClock H) (host : H)
    (hb : CountsBounded c) : CountsBounded (incremented c host) := by
  intro p hp
  rw [entries_incremented] at hp
  rcases mem_setEntry hp with hpe | hm
  · rw [hpe]
    show (getCount c host + 1) % u64Size < u64Size
    exact Nat.mod_lt _ (by decide)
  · exact hb _ hm

/-- C8 witness: the increment succeeds on the clock whose count for host
0 is exactly `u64::MAX`, the overflow case named by the claim. -/
theorem claim8_witness :
    CountsBounded (from_vec [((0 : Nat), u64Size - 1)]) ∧
    CountsBounded (incremented (from_vec [((0 : Nat), u64Size - 1)]) 0) :=
  ⟨by decide,
   claim8_increment_total (from_vec [((0 : Nat), u64Size - 1)]) 0 (by decide)⟩

end VC
